import Mathlib

/-!
Verification of the core logic of the personal notes single-page application.

The development shallowly embeds the note data model, the filter/sort/search
pipeline (`NotesList.filteredNotes`), the sidebar tag registry (`Sidebar`),
the note editor state machine (`NoteEditor`), the application controller
operations (`addNote`/`updateNote`/`deleteNote`/`togglePin`), and the
persistence codec (`safeStringify`/`safeParse`).

Machine integers are modelled as `Int`/`Nat`; JavaScript strings are modelled
as Lean `String`, with the JS string primitives re-implemented over the
character list so that they are executable (Lean's own byte-position based
string functions do not reduce in the kernel). Properties that may be
missing or null on a duck-typed note object are modelled as `Option` fields.
-/

namespace NotesApp

/-- A note record. `title`, `content`, `tags` and `updatedAt` are optional
because the JS code guards each access against missing/null values
(`n.title || ''`, `Array.isArray(n.tags)`, `Number(n.updatedAt || 0)`);
a well-formed note (as produced by the controller) has all fields present. -/
structure Note where
  id : String
  title : Option String
  content : Option String
  tags : Option (List String)
  createdAt : Int
  updatedAt : Option Int
  pinned : Bool
deriving Repr, DecidableEq

/-! ### JS string primitives (ASCII case mapping, `\s` = Lean whitespace) -/

/-- JS `String.prototype.toLowerCase` (ASCII case mapping). -/
def jsLower (s : String) : String := ⟨s.data.map Char.toLower⟩

/-- JS `String.prototype.trim`: strip leading and trailing whitespace. -/
def jsTrim (s : String) : String :=
  ⟨((s.data.dropWhile Char.isWhitespace).reverse.dropWhile Char.isWhitespace).reverse⟩

/-- Executable prefix test on character lists. -/
def prefB : List Char → List Char → Bool
  | [], _ => true
  | _ :: _, [] => false
  | a :: as, b :: bs => a == b && prefB as bs

/-- Executable substring-occurrence test on character lists. -/
def subB (needle : List Char) : List Char → Bool
  | [] => needle.isEmpty
  | c :: t => prefB needle (c :: t) || subB needle t

/-- JS `hay.includes(needle)`. -/
def jsIncludes (hay needle : String) : Bool := subB needle.data hay.data

/-! ### Filter/sort engine (`NotesList.filteredNotes`) -/

/-- The query predicate of `NotesList.filteredNotes`:
`!q || (n.title || '').toLowerCase().includes(q) || (n.content || '').toLowerCase().includes(q)
|| (Array.isArray(n.tags) ? n.tags.some(t => String(t).toLowerCase().includes(q)) : false)`. -/
def matchesQ (q : String) (n : Note) : Bool :=
  q == "" ||
  jsIncludes (jsLower (n.title.getD "")) q ||
  jsIncludes (jsLower (n.content.getD "")) q ||
  (match n.tags with
   | some ts => ts.any fun t => jsIncludes (jsLower t) q
   | none => false)

/-- The tag predicate of `NotesList.filteredNotes`:
`selectedTag == null || (Array.isArray(n.tags) && n.tags.includes(selectedTag))`. -/
def matchesTag (selectedTag : Option String) (n : Note) : Bool :=
  match selectedTag with
  | none => true
  | some tag =>
    match n.tags with
    | some ts => ts.contains tag
    | none => false

/-- `b.pinned ? 1 : 0` of the sort comparator. -/
def pinRank (n : Note) : Int := if n.pinned then 1 else 0

/-- `Number(n.updatedAt || 0)`: a missing or zero `updatedAt` is numeric 0. -/
def updTime (n : Note) : Int := n.updatedAt.getD 0

/-- `comparator(a, b) ≤ 0` for the comparator
`(b.pinned?1:0) - (a.pinned?1:0)` then `bTime - aTime`: note `a` may be
placed before note `b`. -/
def keyLe (a b : Note) : Prop :=
  pinRank b < pinRank a ∨ (pinRank a = pinRank b ∧ updTime b ≤ updTime a)

instance : DecidableRel keyLe := fun a b => by unfold keyLe; infer_instance

instance : IsTotal Note keyLe := ⟨by intro a b; unfold keyLe; omega⟩

instance : IsTrans Note keyLe := ⟨by intro a b c; unfold keyLe; omega⟩

/-- `filtered.sort(comparator)`. JS `Array.prototype.sort` is stable, and the
comparator is consistent (key-based), so its result is the unique stable
order: insertion sort with respect to `keyLe`. -/
def sortNotes (l : List Note) : List Note := List.insertionSort keyLe l

/-- The `filteredNotes` pipeline of `NotesList`: lowercase and trim the query,
filter by query and tag predicates, then sort. -/
def filteredNotes (notes : List Note) (searchQuery : String)
    (selectedTag : Option String) : List Note :=
  let q := jsTrim (jsLower searchQuery)
  sortNotes (notes.filter fun n => matchesQ q n && matchesTag selectedTag n)

/-! ### Lemmas: the sort is a stable reordering -/

/-- The boolean key test used to state stability. -/
def keyIs (p t : Int) (n : Note) : Bool := pinRank n == p && updTime n == t

theorem not_keyLe_key_ne {x h : Note} (hx : ¬ keyLe x h) (p t : Int)
    (hk : keyIs p t x = true) : keyIs p t h = false := by
  unfold keyLe at hx
  unfold keyIs at *
  simp only [Bool.and_eq_true, beq_iff_eq] at hk
  simp only [Bool.and_eq_false_iff, beq_eq_false_iff_ne, ne_eq]
  by_contra hcon
  push_neg at hcon
  omega

theorem filter_orderedInsert_key (x : Note) (l : List Note) (p t : Int) :
    (List.orderedInsert keyLe x l).filter (keyIs p t) =
      if keyIs p t x then x :: l.filter (keyIs p t) else l.filter (keyIs p t) := by
  induction l with
  | nil =>
    simp only [List.orderedInsert, List.filter]
    rcases hx : keyIs p t x <;> simp [hx]
  | cons h tl ih =>
    by_cases hle : keyLe x h
    · simp only [List.orderedInsert, if_pos hle, List.filter]
      rcases hx : keyIs p t x <;> simp [hx]
    · simp only [List.orderedInsert, if_neg hle, List.filter]
      rcases hx : keyIs p t x with _ | _
      · rcases hh : keyIs p t h <;> simp [hh, ih, hx]
      · have hh := not_keyLe_key_ne hle p t hx
        simp [hh, ih, hx]

theorem filter_sortNotes_key (l : List Note) (p t : Int) :
    (sortNotes l).filter (keyIs p t) = l.filter (keyIs p t) := by
  induction l with
  | nil => rfl
  | cons a l ih =>
    have : sortNotes (a :: l) = List.orderedInsert keyLe a (sortNotes l) := rfl
    rw [this, filter_orderedInsert_key]
    rcases hx : keyIs p t a <;> simp [hx, ih, List.filter]

theorem filteredNotes_empty_query (notes : List Note) :
    filteredNotes notes "" none = sortNotes notes := by
  have hq : jsTrim (jsLower "") = "" := rfl
  unfold filteredNotes
  simp only [hq]
  have : (notes.filter fun n => matchesQ "" n && matchesTag none n) = notes := by
    simp [matchesQ, matchesTag]
  rw [this]

/-- C1: with an empty query and no tag filter, the display pipeline returns
exactly the notes of the collection (a permutation), ordered pinned-first and
by descending `updatedAt` (missing/0 treated as 0), and stably: the notes with
any fixed sort key appear in their original collection order. -/
theorem C1_display_empty_query_stable_sorted (notes : List Note) :
    (filteredNotes notes "" none).Perm notes ∧
    List.Sorted keyLe (filteredNotes notes "" none) ∧
    ∀ p t : Int,
      (filteredNotes notes "" none).filter (keyIs p t) = notes.filter (keyIs p t) := by
  rw [filteredNotes_empty_query]
  refine ⟨List.perm_insertionSort keyLe notes, List.sorted_insertionSort keyLe notes, ?_⟩
  intro p t
  exact filter_sortNotes_key notes p t

/-! ### Note editor (`NoteEditor`) -/

/-- Replace each maximal run of whitespace by a single hyphen
(`.replace(/\s+/g, '-')`). The boolean argument records whether the previous
character was part of a whitespace run. -/
def collapseWs : List Char → Bool → List Char
  | [], _ => []
  | c :: cs, prevWs =>
    if c.isWhitespace then
      if prevWs then collapseWs cs true else '-' :: collapseWs cs true
    else c :: collapseWs cs false

/-- `normalizeTag` of `NoteEditor`:
`String(t || '').trim().replace(/\s+/g, '-').replace(/,+/g, '').toLowerCase()`. -/
def normalizeTag (t : String) : String :=
  jsLower ⟨(collapseWs (jsTrim t).data false).filter fun c => !(c == ',')⟩

/-- JS `raw.split(',')` (splitting on a single-character separator). -/
def splitCommaAux : List Char → List Char → List String
  | [], acc => [⟨acc.reverse⟩]
  | c :: cs, acc =>
    if c == ',' then (⟨acc.reverse⟩ : String) :: splitCommaAux cs []
    else splitCommaAux cs (c :: acc)

def jsSplitComma (s : String) : List String := splitCommaAux s.data []

/-- JS `Array.from(new Set(l))`: deduplicate keeping first occurrences in
insertion order. -/
def dedupFirst (l : List String) : List String :=
  l.foldl (fun acc x => if x ∈ acc then acc else acc ++ [x]) []

/-- `addTagFromInput` of `NoteEditor`: split the raw tag input on commas,
normalize each token, drop empty tokens; if no token remains do nothing
(the input is not even cleared), otherwise union the tokens into the
(re-normalized) tag set and clear the input. Returns (tags, tagInput). -/
def addTagFromInput (tags : List String) (tagInput : String) : List String × String :=
  let split := ((jsSplitComma tagInput).map normalizeTag).filter fun s => !(s == "")
  if split = [] then (tags, tagInput)
  else (dedupFirst (tags.map normalizeTag ++ split), "")

inductive Mode where
  | create
  | edit
deriving Repr, DecidableEq

/-- The editor's transient buffer state (`useState` fields of `NoteEditor`).
`error` is the validation-error string; the empty string means no error. -/
structure EditorState where
  title : String
  content : String
  tags : List String
  tagInput : String
  error : String
deriving Repr, DecidableEq

/-- The save payload constructed by `handleSave` (optional fields mirror the
conditionally-spread properties). -/
structure SavePayload where
  id : Option String
  title : String
  content : String
  tags : List String
  createdAt : Option Int
  updatedAt : Int
deriving Repr, DecidableEq

/-- The init effect of `NoteEditor` on open: title/content come from the
initial note only in edit mode, tags from `Array.isArray(base.tags) ?
base.tags : []`, tag input and error reset. -/
def initEditor (mode : Mode) (initialNote : Note) : EditorState :=
  { title := if mode = Mode.edit then initialNote.title.getD "" else ""
    content := if mode = Mode.edit then initialNote.content.getD "" else ""
    tags := initialNote.tags.getD []
    tagInput := ""
    error := "" }

/-- The title input's `onChange`: set the title and clear any error
(`if (error) setError('')` leaves the error empty in both cases). -/
def handleTitleChange (s : EditorState) (v : String) : EditorState :=
  { s with title := v, error := "" }

def handleContentChange (s : EditorState) (v : String) : EditorState :=
  { s with content := v }

def handleTagInputChange (s : EditorState) (v : String) : EditorState :=
  { s with tagInput := v }

/-- Committing the tag input to the buffer (Enter, comma, or blur). -/
def commitTagInput (s : EditorState) : EditorState :=
  let r := addTagFromInput s.tags s.tagInput
  { s with tags := r.1, tagInput := r.2 }

/-- `handleSave` of `NoteEditor`: reject with an error when the trimmed title
is empty (no payload emitted), otherwise emit the save payload. The `id` and
`createdAt` properties are included only in edit mode and only when truthy on
the initial note; in create mode both timestamps are set to now. -/
def handleSave (mode : Mode) (initialNote : Note) (s : EditorState) (now : Int) :
    EditorState × Option SavePayload :=
  let t := jsTrim s.title
  if t = "" then ({ s with error := "Title is required." }, none)
  else
    (s, some
      { id := if mode = Mode.edit ∧ initialNote.id ≠ "" then some initialNote.id else none
        title := t
        content := s.content
        tags := s.tags
        createdAt :=
          if mode = Mode.edit then
            (if initialNote.createdAt ≠ 0 then some initialNote.createdAt else none)
          else some now
        updatedAt := now })

/-! ### Application controller (`App`) -/

/-- `DEFAULT_NOTE` of `constants.js`. -/
def DEFAULT_NOTE : Note :=
  { id := "", title := some "", content := some "", tags := some []
    createdAt := 0, updatedAt := some 0, pinned := false }

/-- The controller-owned state: note collection, selection, editor flags. -/
structure AppState where
  notes : List Note
  selectedNoteId : Option String
  isEditorOpen : Bool
  editorMode : Mode
deriving Repr, DecidableEq

/-- `addNote`: build the new note (spreading `DEFAULT_NOTE`, every field then
overridden; `payload.content || ''` is the identity on strings and
`payload.tags` is always an array in the model), prepend it and select it.
The fresh id (`crypto.randomUUID()`) and `Date.now()` are inputs. -/
def addNote (app : AppState) (payload : SavePayload) (id : String) (now : Int) : AppState :=
  let newNote : Note :=
    { id := id
      title := some payload.title
      content := some payload.content
      tags := some payload.tags
      createdAt := now
      updatedAt := some now
      pinned := false }
  { app with notes := newNote :: app.notes, selectedNoteId := some id }

/-- `updateNote`: resolve the target id (`payload.id || selectedNoteId`, the
empty string being falsy), return unchanged if it is absent/falsy, otherwise
map over the collection replacing title/content/tags and refreshing
`updatedAt` on the matching note(s). -/
def updateNote (app : AppState) (payload : SavePayload) (now : Int) : AppState :=
  let targetId : Option String :=
    match payload.id with
    | some i => if i = "" then app.selectedNoteId else some i
    | none => app.selectedNoteId
  match targetId with
  | none => app
  | some tid =>
    if tid = "" then app
    else
      { app with
        notes := app.notes.map fun n =>
          if n.id = tid then
            { n with title := some payload.title, content := some payload.content,
                     tags := some payload.tags, updatedAt := some now }
          else n }

/-- `deleteNote`: remove by id and clear the selection if it pointed at the
deleted note. -/
def deleteNote (app : AppState) (id : String) : AppState :=
  { app with
    notes := app.notes.filter fun n => !(n.id == id)
    selectedNoteId := if app.selectedNoteId = some id then none else app.selectedNoteId }

/-- `togglePin`: set `pinned` to `!!next` and refresh `updatedAt` on the
matching note(s). -/
def togglePin (app : AppState) (id : String) (next : Bool) (now : Int) : AppState :=
  { app with
    notes := app.notes.map fun n =>
      if n.id = id then { n with pinned := next, updatedAt := some now } else n }

/-- The `onSave` wiring of `App` around the editor's `handleSave`: when a
payload is emitted, create or update according to the editor mode and close
the editor; a rejected save leaves the app state (and the open editor)
untouched. `edNow`/`appNow` are the `Date.now()` readings inside the editor
and inside the controller. -/
def saveFlow (app : AppState) (initialNote : Note) (ed : EditorState)
    (freshId : String) (edNow appNow : Int) : AppState × EditorState :=
  match handleSave app.editorMode initialNote ed edNow with
  | (ed2, none) => (app, ed2)
  | (ed2, some payload) =>
    let app2 :=
      if app.editorMode = Mode.create then addNote app payload freshId appNow
      else updateNote app payload appNow
    ({ app2 with isEditorOpen := false }, ed2)

/-! ### Query filtering (C2) -/

theorem filteredNotes_no_tagFilter (notes : List Note) (q : String) :
    filteredNotes notes q none =
      sortNotes (notes.filter (matchesQ (jsTrim (jsLower q)))) := by
  unfold filteredNotes
  show sortNotes (notes.filter fun n =>
      matchesQ (jsTrim (jsLower q)) n && matchesTag none n) = _
  have : (fun n => matchesQ (jsTrim (jsLower q)) n && matchesTag none n) =
      fun n => matchesQ (jsTrim (jsLower q)) n := by
    funext n
    simp [matchesTag]
  rw [this]

/-- The note used as the counterexample input for C2. -/
def qNote : Note :=
  { id := "1", title := some "x", content := some "", tags := some []
    createdAt := 0, updatedAt := some 0, pinned := false }

/-- C2 counterexample: for the query `" "` (a single space, which is not the
empty string and is not a substring of the title `"x"`, the content `""` or
any tag of the note), the pipeline nevertheless returns the note, because the
code trims the query to `""` first. This refutes the claim as stated. -/
theorem C2_counterexample_untrimmed_query :
    filteredNotes [qNote] " " none = [qNote] ∧
    (" " : String) ≠ "" ∧
    jsIncludes (jsLower (qNote.title.getD "")) " " = false ∧
    jsIncludes (jsLower (qNote.content.getD "")) " " = false ∧
    (qNote.tags.getD []).all (fun t => !(jsIncludes (jsLower t) " ")) = true := by
  decide

/-- C2 (amended): with no tag filter, the pipeline returns exactly those notes
whose lowercased-and-trimmed query is empty or occurs (case-insensitively) in
the title, the content, or some tag — `matchesQ` applied to the trimmed,
lowercased query. -/
theorem C2_query_filter_amended (notes : List Note) (q : String) :
    (filteredNotes notes q none).Perm
      (notes.filter (matchesQ (jsTrim (jsLower q)))) ∧
    (∀ n ∈ filteredNotes notes q none, matchesQ (jsTrim (jsLower q)) n = true) ∧
    (∀ n ∈ notes, matchesQ (jsTrim (jsLower q)) n = true →
      n ∈ filteredNotes notes q none) := by
  rw [filteredNotes_no_tagFilter]
  refine ⟨List.perm_insertionSort _ _, ?_, ?_⟩
  · intro n hn
    have := (List.mem_insertionSort keyLe).1 hn
    exact (List.mem_filter.1 this).2
  · intro n hn hq
    exact (List.mem_insertionSort keyLe).2 (List.mem_filter.2 ⟨hn, hq⟩)

theorem C2_query_filter_amended_witness :
    qNote ∈ filteredNotes [qNote] "x" none :=
  (C2_query_filter_amended [qNote] "x").2.2 qNote (by decide) (by decide)

/-! ### Tag tokenization (C4) -/

theorem dedupAux_mem (l : List String) (acc : List String) (x : String) :
    x ∈ l.foldl (fun acc x => if x ∈ acc then acc else acc ++ [x]) acc ↔
      x ∈ acc ∨ x ∈ l := by
  induction l generalizing acc with
  | nil => simp
  | cons a l ih =>
    simp only [List.foldl_cons]
    rw [ih]
    by_cases h : a ∈ acc
    · constructor
      · rintro (hx | hx)
        · simp [h] at hx
          exact Or.inl hx
        · exact Or.inr (List.mem_cons_of_mem a hx)
      · rintro (hx | hx)
        · exact Or.inl (by simp [h, hx])
        · rcases List.mem_cons.1 hx with rfl | hx
          · exact Or.inl (by simp [h])
          · exact Or.inr hx
    · simp only [if_neg h, List.mem_append, List.mem_singleton, List.mem_cons]
      tauto

theorem dedupAux_nodup (l : List String) (acc : List String) (h : acc.Nodup) :
    (l.foldl (fun acc x => if x ∈ acc then acc else acc ++ [x]) acc).Nodup := by
  induction l generalizing acc with
  | nil => simpa
  | cons a l ih =>
    simp only [List.foldl_cons]
    by_cases ha : a ∈ acc
    · rw [if_pos ha]
      exact ih acc h
    · rw [if_neg ha]
      refine ih _ ?_
      simp [List.nodup_append, h, ha]

theorem dedupAux_sublist (l : List String) (acc : List String) :
    ∃ r, l.foldl (fun acc x => if x ∈ acc then acc else acc ++ [x]) acc = acc ++ r ∧
      r.Sublist l := by
  induction l generalizing acc with
  | nil => exact ⟨[], by simp, List.nil_sublist _⟩
  | cons a l ih =>
    simp only [List.foldl_cons]
    by_cases ha : a ∈ acc
    · rw [if_pos ha]
      obtain ⟨r, hr, hs⟩ := ih acc
      exact ⟨r, hr, hs.cons a⟩
    · rw [if_neg ha]
      obtain ⟨r, hr, hs⟩ := ih (acc ++ [a])
      refine ⟨a :: r, ?_, hs.cons₂ a⟩
      rw [hr, List.append_assoc, List.singleton_append]

/-- C4: committing raw tag input. The literal scenario `"Work, Urgent ,work"`
on an empty buffer yields exactly `["work", "urgent"]` (input cleared); in
general, when at least one normalized token survives, the new tag list is the
first-occurrence deduplication of the re-normalized previous tags followed by
the tokens (split on commas, trimmed, whitespace collapsed to hyphens, commas
stripped, lowercased, empties dropped); and `dedupFirst` has no duplicates,
preserves membership, and keeps first-insertion order (it is a sublist). -/
theorem C4_tag_tokenization :
    addTagFromInput [] "Work, Urgent ,work" = (["work", "urgent"], "") ∧
    (∀ tags tagInput,
      ((jsSplitComma tagInput).map normalizeTag).filter (fun s => !(s == "")) ≠ [] →
      addTagFromInput tags tagInput =
        (dedupFirst (tags.map normalizeTag ++
          ((jsSplitComma tagInput).map normalizeTag).filter fun s => !(s == "")), "")) ∧
    (∀ l : List String, (dedupFirst l).Nodup) ∧
    (∀ l : List String, ∀ x, x ∈ dedupFirst l ↔ x ∈ l) ∧
    (∀ l : List String, (dedupFirst l).Sublist l) := by
  refine ⟨by decide, ?_, ?_, ?_, ?_⟩
  · intro tags tagInput h
    unfold addTagFromInput
    simp only [if_neg h]
  · intro l
    exact dedupAux_nodup l [] (List.nodup_nil)
  · intro l x
    have := dedupAux_mem l [] x
    simpa [dedupFirst] using this
  · intro l
    obtain ⟨r, hr, hs⟩ := dedupAux_sublist l []
    unfold dedupFirst
    rw [hr, List.nil_append]
    exact hs

theorem C4_tag_tokenization_witness :
    addTagFromInput ["x"] "Y" =
      (dedupFirst (["x"].map normalizeTag ++
        ((jsSplitComma "Y").map normalizeTag).filter fun s => !(s == "")), "") :=
  C4_tag_tokenization.2.1 ["x"] "Y" (by decide)

/-! ### Save rejection on empty title (C5) -/

/-- C5: a save with an all-whitespace (or empty) title is rejected: the app
state (collection, selection, open editor) is untouched, no payload reaches
the controller, the error flag is set to a nonempty message, and any
subsequent title edit clears the error. -/
theorem C5_empty_title_rejected (app : AppState) (initialNote : Note)
    (ed : EditorState) (freshId : String) (edNow appNow : Int)
    (h : jsTrim ed.title = "") :
    saveFlow app initialNote ed freshId edNow appNow =
      (app, { ed with error := "Title is required." }) ∧
    ("Title is required." : String) ≠ "" ∧
    (∀ s : EditorState, ∀ v : String, (handleTitleChange s v).error = "") := by
  refine ⟨?_, by decide, fun s v => rfl⟩
  unfold saveFlow handleSave
  simp [h]

def edW : EditorState := { title := "   ", content := "c", tags := [], tagInput := "", error := "" }

def appW : AppState := { notes := [], selectedNoteId := none, isEditorOpen := true, editorMode := Mode.create }

theorem C5_empty_title_rejected_witness :
    saveFlow appW DEFAULT_NOTE edW "id1" 3 4 =
      (appW, { edW with error := "Title is required." }) :=
  (C5_empty_title_rejected appW DEFAULT_NOTE edW "id1" 3 4 (by decide)).1

/-! ### Create scenario (C6) -/

/-- C6: creating a note titled `"Test Note"` with content `"hello"` and tag
input `"work,urgent"` (committed, then saved in create mode) mints the
supplied fresh id, prepends a note with `title = "Test Note"`,
`tags = ["work", "urgent"]`, `pinned = false` and `createdAt = updatedAt`
(both the controller's clock reading), selects it, and closes the editor. -/
theorem C6_create_scenario (notes : List Note) (sel : Option String)
    (freshId : String) (edNow appNow : Int) :
    saveFlow { notes := notes, selectedNoteId := sel, isEditorOpen := true,
               editorMode := Mode.create } DEFAULT_NOTE
      (commitTagInput (handleTagInputChange (handleContentChange
        (handleTitleChange (initEditor Mode.create DEFAULT_NOTE) "Test Note") "hello")
        "work,urgent")) freshId edNow appNow =
      ({ notes := { id := freshId, title := some "Test Note", content := some "hello",
                    tags := some ["work", "urgent"], createdAt := appNow,
                    updatedAt := some appNow, pinned := false } :: notes,
         selectedNoteId := some freshId, isEditorOpen := false,
         editorMode := Mode.create },
       commitTagInput (handleTagInputChange (handleContentChange
        (handleTitleChange (initEditor Mode.create DEFAULT_NOTE) "Test Note") "hello")
        "work,urgent")) := by
  rfl

/-! ### Update frame conditions (C7) -/

theorem updateNote_resolved (app : AppState) (payload : SavePayload) (id : String)
    (now : Int) (hid : payload.id = some id) (hne : id ≠ "") :
    updateNote app payload now =
      { app with
        notes := app.notes.map fun n =>
          if n.id = id then
            { n with title := some payload.title, content := some payload.content,
                     tags := some payload.tags, updatedAt := some now }
          else n } := by
  unfold updateNote
  rw [hid]
  simp only [if_neg hne]

/-- C7: `updateNote` with a present, nonempty payload id: if no note carries
the id the state is returned unchanged; otherwise the collection keeps its
length and order, every note with a different id is untouched, and a note
with the target id gets exactly its title, content, tags and `updatedAt`
replaced (id, `createdAt`, `pinned` preserved by the record update); the
selection and editor flags are never touched. -/
theorem C7_updateNote_frame (app : AppState) (payload : SavePayload) (id : String)
    (now : Int) (hid : payload.id = some id) (hne : id ≠ "") :
    ((∀ n ∈ app.notes, n.id ≠ id) → updateNote app payload now = app) ∧
    (updateNote app payload now).notes.length = app.notes.length ∧
    (updateNote app payload now).selectedNoteId = app.selectedNoteId ∧
    (updateNote app payload now).isEditorOpen = app.isEditorOpen ∧
    (updateNote app payload now).editorMode = app.editorMode ∧
    ∀ i : Nat, ∀ n : Note, app.notes[i]? = some n →
      ((n.id ≠ id → (updateNote app payload now).notes[i]? = some n) ∧
       (n.id = id → (updateNote app payload now).notes[i]? =
         some { n with title := some payload.title,
                       content := some payload.content,
                       tags := some payload.tags, updatedAt := some now })) := by
  rw [updateNote_resolved app payload id now hid hne]
  refine ⟨?_, by simp, rfl, rfl, rfl, ?_⟩
  · intro h
    have hmap : ∀ l : List Note, (∀ n ∈ l, n.id ≠ id) →
        (l.map fun n =>
          if n.id = id then
            { n with title := some payload.title, content := some payload.content,
                     tags := some payload.tags, updatedAt := some now }
          else n) = l := by
      intro l hl
      induction l with
      | nil => rfl
      | cons a l ih =>
        simp only [List.map_cons, if_neg (hl a (List.mem_cons_self a l))]
        rw [ih fun n hn => hl n (List.mem_cons_of_mem a hn)]
    rw [hmap app.notes h]
  · intro i n hn
    constructor
    · intro hni
      simp [List.getElem?_map, hn, hni]
    · intro hni
      simp [List.getElem?_map, hn, hni]

def noteA : Note :=
  { id := "a", title := some "x", content := some "y", tags := some []
    createdAt := 1, updatedAt := some 2, pinned := false }

def appW2 : AppState :=
  { notes := [noteA], selectedNoteId := none, isEditorOpen := false, editorMode := Mode.edit }

def pW : SavePayload :=
  { id := some "a", title := "T", content := "c", tags := ["t"], createdAt := none, updatedAt := 9 }

theorem C7_updateNote_frame_witness :
    (updateNote appW2 pW 9).notes.length = appW2.notes.length :=
  (C7_updateNote_frame appW2 pW "a" 9 rfl (by decide)).2.1

/-! ### Timestamp invariant (C8) -/

/-- The invariant `createdAt ≤ updatedAt` for one note (with `updatedAt`
present). -/
def tsOk (n : Note) : Prop := ∃ u, n.updatedAt = some u ∧ n.createdAt ≤ u

/-- C8: `createdAt ≤ updatedAt` is preserved by every controller operation,
assuming it holds on the input collection and that the clock reading passed
to an update/togglePin is at least the targeted notes' `createdAt`
(`addNote` and `deleteNote` need no clock hypothesis). -/
theorem C8_timestamp_invariant (app : AppState) (payload : SavePayload)
    (freshId pid delId togId : String) (next : Bool) (now : Int)
    (hInv : ∀ n ∈ app.notes, tsOk n) :
    (∀ n ∈ (addNote app payload freshId now).notes, tsOk n) ∧
    (payload.id = some pid → pid ≠ "" →
      (∀ n ∈ app.notes, n.id = pid → n.createdAt ≤ now) →
      ∀ n ∈ (updateNote app payload now).notes, tsOk n) ∧
    (∀ n ∈ (deleteNote app delId).notes, tsOk n) ∧
    ((∀ n ∈ app.notes, n.id = togId → n.createdAt ≤ now) →
      ∀ n ∈ (togglePin app togId next now).notes, tsOk n) := by
  refine ⟨?_, ?_, ?_, ?_⟩
  · intro n hn
    rcases List.mem_cons.1 hn with rfl | hn
    · exact ⟨now, rfl, le_refl now⟩
    · exact hInv n hn
  · intro hid hne hnow n hn
    rw [updateNote_resolved app payload pid now hid hne] at hn
    obtain ⟨m, hm, rfl⟩ := List.mem_map.1 hn
    by_cases hmi : m.id = pid
    · rw [if_pos hmi]
      exact ⟨now, rfl, hnow m hm hmi⟩
    · rw [if_neg hmi]
      exact hInv m hm
  · intro n hn
    exact hInv n (List.mem_of_mem_filter hn)
  · intro hnow n hn
    obtain ⟨m, hm, rfl⟩ := List.mem_map.1 hn
    by_cases hmi : m.id = togId
    · rw [if_pos hmi]
      exact ⟨now, rfl, hnow m hm hmi⟩
    · rw [if_neg hmi]
      exact hInv m hm

theorem C8_timestamp_invariant_witness :
    tsOk { id := "f", title := some "T", content := some "c", tags := some ["t"],
           createdAt := 5, updatedAt := some 5, pinned := false } := by
  have hInv : ∀ n ∈ appW2.notes, tsOk n := by
    intro n hn
    simp only [appW2, List.mem_singleton] at hn
    subst hn
    exact ⟨2, rfl, by norm_num [noteA]⟩
  exact (C8_timestamp_invariant appW2 pW "f" "a" "z" "a" true 5 hInv).1
    _ (by simp [addNote, appW2, pW])

/-! ### Sidebar tag registry (`Sidebar`) -/

/-- JS `Map.set` on an association list: update the existing entry in place
or append a new one (JS `Map` preserves insertion order). -/
def mapSet : List (String × Nat) → String → Nat → List (String × Nat)
  | [], k, v => [(k, v)]
  | (k', v') :: rest, k, v =>
    if k' = k then (k, v) :: rest else (k', v') :: mapSet rest k v

/-- JS `counts.get(key) || 0`. -/
def mapGetD : List (String × Nat) → String → Nat
  | [], _ => 0
  | (k', v') :: rest, k => if k' = k then v' else mapGetD rest k

/-- The inner tag loop of `Sidebar`:
`for (const t of n.tags) counts.set(String(t), (counts.get(String(t)) || 0) + 1)`
(`String(t)` is the identity on strings). -/
def addTags (m : List (String × Nat)) (ts : List String) : List (String × Nat) :=
  ts.foldl (fun m t => mapSet m t (mapGetD m t + 1)) m

/-- One iteration of the `Sidebar` loop body: bump the pinned count when
`n?.pinned` is truthy and add the note's tags when `Array.isArray(n?.tags)`. -/
def sideStep (acc : List (String × Nat) × Nat) (n : Note) : List (String × Nat) × Nat :=
  ((match n.tags with
    | some ts => addTags acc.1 ts
    | none => acc.1),
   if n.pinned then acc.2 + 1 else acc.2)

/-- The `Sidebar` scan over the collection: tag-occurrence counts and the
pinned count, in one pass. -/
def sidebarScan (notes : List Note) : List (String × Nat) × Nat :=
  notes.foldl sideStep ([], 0)

/-- Code-point comparison of character lists; models the deterministic
alphabetical order produced by the `localeCompare` sort comparator. -/
def lexLeb : List Char → List Char → Bool
  | [], _ => true
  | _ :: _, [] => false
  | a :: as, b :: bs =>
    if a.toNat < b.toNat then true
    else if b.toNat < a.toNat then false
    else lexLeb as bs

def tagEntryLe (a b : String × Nat) : Prop := lexLeb a.1.data b.1.data = true

instance : DecidableRel tagEntryLe := fun a b => by unfold tagEntryLe; infer_instance

theorem lexLeb_total : ∀ as bs : List Char, lexLeb as bs = true ∨ lexLeb bs as = true := by
  intro as
  induction as with
  | nil => intro bs; left; rfl
  | cons a as ih =>
    intro bs
    cases bs with
    | nil => right; rfl
    | cons b bs =>
      by_cases h1 : a.toNat < b.toNat
      · left; simp [lexLeb, h1]
      · by_cases h2 : b.toNat < a.toNat
        · right; simp [lexLeb, h2]
        · rcases ih bs with h | h
          · left; simp [lexLeb, h1, h2, h]
          · right; simp [lexLeb, h1, h2, h]

theorem lexLeb_cons (a b : Char) (as bs : List Char) :
    lexLeb (a :: as) (b :: bs) =
      (if a.toNat < b.toNat then true
       else if b.toNat < a.toNat then false
       else lexLeb as bs) := rfl

theorem lexLeb_trans : ∀ as bs cs : List Char,
    lexLeb as bs = true → lexLeb bs cs = true → lexLeb as cs = true := by
  intro as
  induction as with
  | nil => intro bs cs _ _; rfl
  | cons a as ih =>
    intro bs cs h1 h2
    cases bs with
    | nil => simp [lexLeb] at h1
    | cons b bs =>
      cases cs with
      | nil => simp [lexLeb] at h2
      | cons c cs =>
        rw [lexLeb_cons] at h1 h2 ⊢
        rcases Nat.lt_trichotomy a.toNat b.toNat with hab | hab | hab
        · rcases Nat.lt_trichotomy b.toNat c.toNat with hbc | hbc | hbc
          · rw [if_pos (show a.toNat < c.toNat by omega)]
          · rw [if_pos (show a.toNat < c.toNat by omega)]
          · rw [if_neg (show ¬ b.toNat < c.toNat by omega),
              if_pos (show c.toNat < b.toNat by omega)] at h2
            simp at h2
        · rcases Nat.lt_trichotomy b.toNat c.toNat with hbc | hbc | hbc
          · rw [if_pos (show a.toNat < c.toNat by omega)]
          · rw [if_neg (show ¬ a.toNat < b.toNat by omega),
              if_neg (show ¬ b.toNat < a.toNat by omega)] at h1
            rw [if_neg (show ¬ b.toNat < c.toNat by omega),
              if_neg (show ¬ c.toNat < b.toNat by omega)] at h2
            rw [if_neg (show ¬ a.toNat < c.toNat by omega),
              if_neg (show ¬ c.toNat < a.toNat by omega)]
            exact ih bs cs h1 h2
          · rw [if_neg (show ¬ b.toNat < c.toNat by omega),
              if_pos (show c.toNat < b.toNat by omega)] at h2
            simp at h2
        · rw [if_neg (show ¬ a.toNat < b.toNat by omega),
            if_pos (show b.toNat < a.toNat by omega)] at h1
          simp at h1

instance : IsTotal (String × Nat) tagEntryLe :=
  ⟨fun a b => lexLeb_total a.1.data b.1.data⟩

instance : IsTrans (String × Nat) tagEntryLe :=
  ⟨fun a b c => lexLeb_trans a.1.data b.1.data c.1.data⟩

/-- The sorted tag-count entries
(`Array.from(counts.entries()).sort((a, b) => a[0].localeCompare(b[0]))`). -/
def tagCounts (notes : List Note) : List (String × Nat) :=
  List.insertionSort tagEntryLe (sidebarScan notes).1

/-- The derived registry of `Sidebar`: `(tagCounts, totalCount, pinnedCount)`
with `totalCount = notes.length`. -/
def sidebarStats (notes : List Note) : List (String × Nat) × Nat × Nat :=
  (tagCounts notes, notes.length, (sidebarScan notes).2)

/-! ### Lemmas about the tag-count map -/

theorem mapGetD_mapSet_self (m : List (String × Nat)) (k : String) (v : Nat) :
    mapGetD (mapSet m k v) k = v := by
  induction m with
  | nil => simp [mapSet, mapGetD]
  | cons q rest ih =>
    obtain ⟨k', v'⟩ := q
    by_cases h : k' = k
    · simp [mapSet, mapGetD, h]
    · simp [mapSet, mapGetD, h, ih]

theorem mapGetD_mapSet_ne (m : List (String × Nat)) (k : String) (v : Nat)
    (t : String) (h : k ≠ t) : mapGetD (mapSet m k v) t = mapGetD m t := by
  induction m with
  | nil => simp [mapSet, mapGetD, h]
  | cons q rest ih =>
    obtain ⟨k', v'⟩ := q
    by_cases hk : k' = k
    · subst hk
      simp [mapSet, mapGetD, h]
    · simp [mapSet, mapGetD, hk, ih]

theorem mem_mapSet (m : List (String × Nat)) (k : String) (v : Nat)
    (p : String × Nat) (h : p ∈ mapSet m k v) : p ∈ m ∨ p = (k, v) := by
  induction m with
  | nil =>
    simp [mapSet] at h
    exact Or.inr h
  | cons q rest ih =>
    obtain ⟨k', v'⟩ := q
    by_cases hk : k' = k
    · subst hk
      simp only [mapSet, if_pos] at h
      rcases List.mem_cons.1 h with rfl | h
      · exact Or.inr rfl
      · exact Or.inl (List.mem_cons_of_mem _ h)
    · simp only [mapSet, if_neg hk] at h
      rcases List.mem_cons.1 h with rfl | h
      · exact Or.inl (List.mem_cons_self _ _)
      · rcases ih h with h' | h'
        · exact Or.inl (List.mem_cons_of_mem _ h')
        · exact Or.inr h'

theorem keys_mapSet_sub (m : List (String × Nat)) (k : String) (v : Nat)
    (t : String) (h : t ∈ (mapSet m k v).map Prod.fst) :
    t ∈ m.map Prod.fst ∨ t = k := by
  obtain ⟨p, hp, rfl⟩ := List.mem_map.1 h
  rcases mem_mapSet m k v p hp with h' | rfl
  · exact Or.inl (List.mem_map_of_mem Prod.fst h')
  · exact Or.inr rfl

theorem keysNodup_mapSet (m : List (String × Nat)) (k : String) (v : Nat)
    (h : (m.map Prod.fst).Nodup) : ((mapSet m k v).map Prod.fst).Nodup := by
  induction m with
  | nil => simp [mapSet]
  | cons q rest ih =>
    obtain ⟨k', v'⟩ := q
    simp only [List.map_cons, List.nodup_cons] at h
    by_cases hk : k' = k
    · subst hk
      simpa [mapSet, List.nodup_cons] using h
    · simp only [mapSet, if_neg hk, List.map_cons, List.nodup_cons]
      refine ⟨?_, ih h.2⟩
      intro hmem
      rcases keys_mapSet_sub rest k v k' hmem with h' | h'
      · exact h.1 h'
      · exact hk h'

theorem valsPos_mapSet (m : List (String × Nat)) (k : String) (v : Nat)
    (hv : v ≠ 0) (h : ∀ p ∈ m, p.2 ≠ 0) : ∀ p ∈ mapSet m k v, p.2 ≠ 0 := by
  intro p hp
  rcases mem_mapSet m k v p hp with h' | rfl
  · exact h p h'
  · simpa using hv

theorem mem_iff_mapGetD (m : List (String × Nat))
    (hnd : (m.map Prod.fst).Nodup) (hv : ∀ p ∈ m, p.2 ≠ 0) (t : String) (c : Nat) :
    (t, c) ∈ m ↔ (mapGetD m t = c ∧ c ≠ 0) := by
  induction m with
  | nil =>
    simp only [List.not_mem_nil, mapGetD, false_iff]
    rintro ⟨rfl, hc⟩
    exact hc rfl
  | cons q rest ih =>
    obtain ⟨k', v'⟩ := q
    simp only [List.map_cons, List.nodup_cons] at hnd
    have hv' : ∀ p ∈ rest, p.2 ≠ 0 := fun p hp => hv p (List.mem_cons_of_mem _ hp)
    by_cases hk : k' = t
    · subst hk
      simp only [mapGetD, if_pos rfl]
      constructor
      · intro h
        rcases List.mem_cons.1 h with heq | hmem
        · injection heq with h1 h2
          subst h2
          exact ⟨rfl, hv _ (List.mem_cons_self _ _)⟩
        · exact absurd (List.mem_map_of_mem Prod.fst hmem) hnd.1
      · rintro ⟨rfl, -⟩
        exact List.mem_cons_self _ _
    · simp only [mapGetD, if_neg hk]
      rw [← ih hnd.2 hv']
      constructor
      · intro h
        rcases List.mem_cons.1 h with heq | hmem
        · exact absurd (congrArg Prod.fst heq).symm hk
        · exact hmem
      · exact fun h => List.mem_cons_of_mem _ h

theorem mapGetD_addTags (ts : List String) (m : List (String × Nat)) (t : String) :
    mapGetD (addTags m ts) t = mapGetD m t + ts.count t := by
  induction ts generalizing m with
  | nil => simp [addTags]
  | cons u ts ih =>
    show mapGetD (addTags (mapSet m u (mapGetD m u + 1)) ts) t = _
    rw [ih]
    by_cases h : u = t
    · subst h
      rw [mapGetD_mapSet_self, List.count_cons_self]
      omega
    · rw [mapGetD_mapSet_ne _ _ _ _ h, List.count_cons_of_ne (Ne.symm h)]

theorem keysNodup_addTags (ts : List String) (m : List (String × Nat))
    (h : (m.map Prod.fst).Nodup) : ((addTags m ts).map Prod.fst).Nodup := by
  induction ts generalizing m with
  | nil => exact h
  | cons u ts ih =>
    exact ih _ (keysNodup_mapSet m u _ h)

theorem valsPos_addTags (ts : List String) (m : List (String × Nat))
    (h : ∀ p ∈ m, p.2 ≠ 0) : ∀ p ∈ addTags m ts, p.2 ≠ 0 := by
  induction ts generalizing m with
  | nil => exact h
  | cons u ts ih =>
    exact ih _ (valsPos_mapSet m u _ (Nat.succ_ne_zero _) h)

theorem sideStep_fst (acc : List (String × Nat) × Nat) (n : Note) :
    (sideStep acc n).1 = addTags acc.1 (n.tags.getD []) := by
  cases h : n.tags <;> simp [sideStep, h, addTags]

theorem sideStep_snd (acc : List (String × Nat) × Nat) (n : Note) :
    (sideStep acc n).2 = if n.pinned then acc.2 + 1 else acc.2 := by
  cases h : n.tags <;> simp [sideStep, h]

/-- The number of occurrences of tag `t` across the collection (duplicates
within a note counted separately, which is what the code does). -/
def occCount (notes : List Note) (t : String) : Nat :=
  (notes.map fun n => (n.tags.getD []).count t).sum

theorem scanAux_getD (notes : List Note) (acc : List (String × Nat) × Nat)
    (t : String) :
    mapGetD (notes.foldl sideStep acc).1 t = mapGetD acc.1 t + occCount notes t := by
  induction notes generalizing acc with
  | nil => simp [occCount]
  | cons n notes ih =>
    rw [List.foldl_cons, ih, sideStep_fst, mapGetD_addTags]
    simp [occCount]
    omega

theorem scanAux_pinned (notes : List Note) (acc : List (String × Nat) × Nat) :
    (notes.foldl sideStep acc).2 = acc.2 + notes.countP (fun n => n.pinned) := by
  induction notes generalizing acc with
  | nil => simp
  | cons n notes ih =>
    rw [List.foldl_cons, ih, sideStep_snd, List.countP_cons]
    by_cases h : n.pinned
    · simp [h]
      omega
    · simp [h]

theorem scanAux_keysNodup (notes : List Note) (acc : List (String × Nat) × Nat)
    (h : (acc.1.map Prod.fst).Nodup) :
    ((notes.foldl sideStep acc).1.map Prod.fst).Nodup := by
  induction notes generalizing acc with
  | nil => exact h
  | cons n notes ih =>
    rw [List.foldl_cons]
    refine ih _ ?_
    rw [sideStep_fst]
    exact keysNodup_addTags _ _ h

theorem scanAux_valsPos (notes : List Note) (acc : List (String × Nat) × Nat)
    (h : ∀ p ∈ acc.1, p.2 ≠ 0) :
    ∀ p ∈ (notes.foldl sideStep acc).1, p.2 ≠ 0 := by
  induction notes generalizing acc with
  | nil => exact h
  | cons n notes ih =>
    rw [List.foldl_cons]
    refine ih _ ?_
    rw [sideStep_fst]
    exact valsPos_addTags _ _ h

/-! ### The tag registry claims (C3) -/

/-- The counterexample input for C3: one note listing the same tag twice. -/
def dupNote : Note :=
  { id := "1", title := some "t", content := some "", tags := some ["x", "x"]
    createdAt := 0, updatedAt := some 0, pinned := false }

/-- C3 counterexample: a note whose tag list contains `"x"` twice contributes
2 to the count of `"x"`, not 1 — the code counts every occurrence and does not
deduplicate tags within a note. This refutes the claim as stated. -/
theorem C3_counterexample_duplicate_tag :
    (sidebarStats [dupNote]).1 = [("x", 2)] ∧ ("x", 1) ∉ (sidebarStats [dupNote]).1 := by
  decide

/-- C3 (amended): the tag registry counts every tag occurrence (a note
listing the same tag twice contributes 2), returns the (tag, count) pairs in
deterministic alphabetical (code-point) order without duplicate tags, and
reports `totalCount` = collection size and `pinnedCount` = number of notes
with `pinned = true`; a pair `(t, c)` is listed exactly when `t` occurs
`c > 0` times across the collection. -/
theorem C3_tag_registry_amended (notes : List Note) :
    (sidebarStats notes).2.1 = notes.length ∧
    (sidebarStats notes).2.2 = notes.countP (fun n => n.pinned) ∧
    List.Sorted tagEntryLe (sidebarStats notes).1 ∧
    ((sidebarStats notes).1.map Prod.fst).Nodup ∧
    ∀ t c, ((t, c) ∈ (sidebarStats notes).1 ↔ (occCount notes t = c ∧ c ≠ 0)) := by
  have hperm : (sidebarStats notes).1.Perm (sidebarScan notes).1 :=
    List.perm_insertionSort tagEntryLe _
  have hnd : ((sidebarScan notes).1.map Prod.fst).Nodup :=
    scanAux_keysNodup notes ([], 0) (by simp)
  have hvp : ∀ p ∈ (sidebarScan notes).1, p.2 ≠ 0 :=
    scanAux_valsPos notes ([], 0) (by simp)
  refine ⟨rfl, ?_, List.sorted_insertionSort tagEntryLe _, ?_, ?_⟩
  · show (sidebarScan notes).2 = _
    rw [sidebarScan, scanAux_pinned]
    simp
  · exact ((hperm.map Prod.fst).nodup_iff).2 hnd
  · intro t c
    rw [hperm.mem_iff, mem_iff_mapGetD _ hnd hvp]
    have : mapGetD (sidebarScan notes).1 t = occCount notes t := by
      rw [sidebarScan, scanAux_getD]
      simp [mapGetD]
    rw [this]

theorem C3_tag_registry_amended_witness :
    ("x", 2) ∈ (sidebarStats [dupNote]).1 :=
  ((C3_tag_registry_amended [dupNote]).2.2.2.2 "x" 2).2 (by decide)

/-! ### Totality over malformed notes (C10) -/

/-- Substitute the defaults the code falls back to on malformed notes: a
missing title/content becomes `""`, a missing/non-array tags field becomes
`[]`. -/
def defaultFields (n : Note) : Note :=
  { n with title := some (n.title.getD ""), content := some (n.content.getD ""),
           tags := some (n.tags.getD []) }

theorem matchesQ_defaultFields (q : String) (n : Note) :
    matchesQ q (defaultFields n) = matchesQ q n := by
  cases h : n.tags <;> simp [matchesQ, defaultFields, h]

theorem matchesTag_defaultFields (sel : Option String) (n : Note) :
    matchesTag sel (defaultFields n) = matchesTag sel n := by
  cases sel with
  | none => rfl
  | some tag => cases h : n.tags <;> simp [matchesTag, defaultFields, h]

theorem orderedInsert_map_defaultFields (x : Note) (l : List Note) :
    List.orderedInsert keyLe (defaultFields x) (l.map defaultFields) =
      (List.orderedInsert keyLe x l).map defaultFields := by
  induction l with
  | nil => rfl
  | cons h t ih =>
    by_cases hk : keyLe x h
    · rw [List.map_cons, List.orderedInsert, List.orderedInsert,
        if_pos hk, if_pos (show keyLe (defaultFields x) (defaultFields h) from hk)]
      simp
    · rw [List.map_cons, List.orderedInsert, List.orderedInsert,
        if_neg hk, if_neg (show ¬ keyLe (defaultFields x) (defaultFields h) from hk)]
      rw [ih]
      simp

theorem sortNotes_map_defaultFields (l : List Note) :
    sortNotes (l.map defaultFields) = (sortNotes l).map defaultFields := by
  induction l with
  | nil => rfl
  | cons a l ih =>
    show List.orderedInsert keyLe (defaultFields a) (sortNotes (l.map defaultFields)) = _
    rw [ih, orderedInsert_map_defaultFields]
    rfl

theorem sideStep_defaultFields (acc : List (String × Nat) × Nat) (n : Note) :
    sideStep acc (defaultFields n) = sideStep acc n := by
  cases h : n.tags <;> simp [sideStep, defaultFields, h, addTags]

theorem scanAux_map_defaultFields (notes : List Note)
    (acc : List (String × Nat) × Nat) :
    (notes.map defaultFields).foldl sideStep acc = notes.foldl sideStep acc := by
  induction notes generalizing acc with
  | nil => rfl
  | cons n notes ih =>
    rw [List.map_cons, List.foldl_cons, List.foldl_cons, sideStep_defaultFields]
    exact ih _

/-- C10: the filter/sort pipeline and the tag registry are total over
malformed notes (the embedding is a total function) and treat a missing or
null title/content as `""` and a missing/non-array tags field as no tags:
defaulting those fields up front commutes with the display pipeline and
leaves the tag registry unchanged. -/
theorem C10_malformed_fields_defaulted (notes : List Note) (q : String)
    (sel : Option String) :
    filteredNotes (notes.map defaultFields) q sel =
      (filteredNotes notes q sel).map defaultFields ∧
    sidebarStats (notes.map defaultFields) = sidebarStats notes := by
  constructor
  · show sortNotes ((notes.map defaultFields).filter fun n =>
        matchesQ (jsTrim (jsLower q)) n && matchesTag sel n) = _
    rw [List.filter_map]
    have hpred : ((fun n => matchesQ (jsTrim (jsLower q)) n && matchesTag sel n) ∘
        defaultFields) = fun n => matchesQ (jsTrim (jsLower q)) n && matchesTag sel n := by
      funext n
      simp [Function.comp, matchesQ_defaultFields, matchesTag_defaultFields]
    rw [hpred, sortNotes_map_defaultFields]
    rfl
  · unfold sidebarStats tagCounts sidebarScan
    rw [scanAux_map_defaultFields, List.length_map]

/-! ### JSON values and the persistence codec (C9)

`safeStringify`/`safeParse` wrap the platform's `JSON.stringify`/`JSON.parse`
in try/catch. The platform codec is modelled concretely: JSON values as a
(mutual) inductive, a printer following `JSON.stringify` (no spaces, the
standard escapes, `\u00XX` for other control characters), and a
recursive-descent parser. -/

mutual
inductive JValue where
  | null : JValue
  | bool : Bool → JValue
  | num : Int → JValue
  | str : String → JValue
  | arr : JArr → JValue
  | obj : JObj → JValue

inductive JArr where
  | nil : JArr
  | cons : JValue → JArr → JArr

inductive JObj where
  | nil : JObj
  | cons : String → JValue → JObj → JObj
end

def openBrace : Char := Char.ofNat 123

def closeBrace : Char := Char.ofNat 125

def digitChar (d : Nat) : Char := Char.ofNat (48 + d)

def hexChar (d : Nat) : Char :=
  if d < 10 then Char.ofNat (48 + d) else Char.ofNat (87 + d)

/-- Decimal digits of a natural number. -/
def printNat (n : Nat) : List Char :=
  if _h : n < 10 then [digitChar n]
  else printNat (n / 10) ++ [digitChar (n % 10)]
termination_by n
decreasing_by
  exact Nat.div_lt_self (by omega) (by omega)

def printInt (i : Int) : List Char :=
  if i < 0 then '-' :: printNat i.natAbs else printNat i.toNat

/-- `JSON.stringify`'s escaping of one character. -/
def escapeChar (c : Char) : List Char :=
  if c = '"' then ['\\', '"']
  else if c = '\\' then ['\\', '\\']
  else if c = Char.ofNat 8 then ['\\', 'b']
  else if c = Char.ofNat 9 then ['\\', 't']
  else if c = Char.ofNat 10 then ['\\', 'n']
  else if c = Char.ofNat 12 then ['\\', 'f']
  else if c = Char.ofNat 13 then ['\\', 'r']
  else if c.toNat < 32 then
    ['\\', 'u', '0', '0', hexChar (c.toNat / 16), hexChar (c.toNat % 16)]
  else [c]

def printStrBody : List Char → List Char
  | [] => []
  | c :: cs => escapeChar c ++ printStrBody cs

def printStr (s : String) : List Char :=
  '"' :: (printStrBody s.data ++ ['"'])

mutual
def printVal : JValue → List Char
  | .null => "null".data
  | .bool true => "true".data
  | .bool false => "false".data
  | .num i => printInt i
  | .str s => printStr s
  | .arr a => '[' :: (printArr a ++ [']'])
  | .obj o => openBrace :: (printObj o ++ [closeBrace])

def printArr : JArr → List Char
  | .nil => []
  | .cons v .nil => printVal v
  | .cons v (.cons w tl) => printVal v ++ (',' :: printArr (.cons w tl))

def printObj : JObj → List Char
  | .nil => []
  | .cons k v .nil => printStr k ++ (':' :: printVal v)
  | .cons k v (.cons k2 v2 tl) =>
    (printStr k ++ (':' :: printVal v)) ++ (',' :: printObj (.cons k2 v2 tl))
end

/-! ### The parser -/

def digitVal (c : Char) : Nat := c.toNat - 48

def takeDigits : List Char → List Char × List Char
  | [] => ([], [])
  | c :: cs =>
    if c.isDigit then
      ((c :: (takeDigits cs).1), (takeDigits cs).2)
    else ([], c :: cs)

def natFromDigits (ds : List Char) : Nat :=
  ds.foldl (fun acc c => acc * 10 + digitVal c) 0

def parseNat (s : List Char) : Option (Nat × List Char) :=
  match takeDigits s with
  | ([], _) => none
  | (ds, r) => some (natFromDigits ds, r)

def parseInt (s : List Char) : Option (Int × List Char) :=
  match s with
  | [] => none
  | c :: rest =>
    if c = '-' then (parseNat rest).map fun p => (-(p.1 : Int), p.2)
    else (parseNat (c :: rest)).map fun p => ((p.1 : Int), p.2)

def hexDigVal (c : Char) : Option Nat :=
  if 48 ≤ c.toNat ∧ c.toNat ≤ 57 then some (c.toNat - 48)
  else if 97 ≤ c.toNat ∧ c.toNat ≤ 102 then some (c.toNat - 87)
  else if 65 ≤ c.toNat ∧ c.toNat ≤ 70 then some (c.toNat - 55)
  else none

/-- The character denoted by a single-letter escape sequence. -/
def escCharOf (e : Char) : Option Char :=
  if e = '"' then some '"'
  else if e = '\\' then some '\\'
  else if e = '/' then some '/'
  else if e = 'b' then some (Char.ofNat 8)
  else if e = 't' then some (Char.ofNat 9)
  else if e = 'n' then some (Char.ofNat 10)
  else if e = 'f' then some (Char.ofNat 12)
  else if e = 'r' then some (Char.ofNat 13)
  else none

/-- The body of a string literal, after the opening quote. -/
def parseStrBody : List Char → Option (List Char × List Char)
  | [] => none
  | c :: rest =>
    if c = '"' then some ([], rest)
    else if c = '\\' then
      match rest with
      | [] => none
      | e :: rest2 =>
        if e = 'u' then
          match rest2 with
          | h1 :: h2 :: h3 :: h4 :: rest3 =>
            match hexDigVal h1, hexDigVal h2, hexDigVal h3, hexDigVal h4 with
            | some a, some b, some c', some d =>
              (parseStrBody rest3).map fun p =>
                (Char.ofNat (((a * 16 + b) * 16 + c') * 16 + d) :: p.1, p.2)
            | _, _, _, _ => none
          | _ => none
        else
          match escCharOf e with
          | some ec => (parseStrBody rest2).map fun p => (ec :: p.1, p.2)
          | none => none
    else (parseStrBody rest).map fun p => (c :: p.1, p.2)

mutual
def parseVal : Nat → List Char → Option (JValue × List Char)
  | 0, _ => none
  | _ + 1, [] => none
  | fuel + 1, c :: rest =>
    if c = 'n' then
      match rest with
      | 'u' :: 'l' :: 'l' :: r => some (.null, r)
      | _ => none
    else if c = 't' then
      match rest with
      | 'r' :: 'u' :: 'e' :: r => some (.bool true, r)
      | _ => none
    else if c = 'f' then
      match rest with
      | 'a' :: 'l' :: 's' :: 'e' :: r => some (.bool false, r)
      | _ => none
    else if c = '"' then
      (parseStrBody rest).map fun p => (.str ⟨p.1⟩, p.2)
    else if c = '[' then
      (parseArrItems fuel rest).map fun p => (.arr p.1, p.2)
    else if c = openBrace then
      (parseObjItems fuel rest).map fun p => (.obj p.1, p.2)
    else if c = '-' ∨ c.isDigit then
      (parseInt (c :: rest)).map fun p => (.num p.1, p.2)
    else none

def parseArrItems : Nat → List Char → Option (JArr × List Char)
  | 0, _ => none
  | _ + 1, [] => none
  | fuel + 1, c :: r =>
    if c = ']' then some (.nil, r)
    else
      match parseVal fuel (c :: r) with
      | none => none
      | some (v, r2) =>
        match r2 with
        | [] => none
        | c2 :: r3 =>
          if c2 = ',' then
            match parseArrItems fuel r3 with
            | some (tl, r4) => some (.cons v tl, r4)
            | none => none
          else if c2 = ']' then some (.cons v .nil, r3)
          else none

def parseObjItems : Nat → List Char → Option (JObj × List Char)
  | 0, _ => none
  | _ + 1, [] => none
  | fuel + 1, c :: r =>
    if c = closeBrace then some (.nil, r)
    else if c = '"' then
      match parseStrBody r with
      | none => none
      | some (kcs, r2) =>
        match r2 with
        | ':' :: r3 =>
          match parseVal fuel r3 with
          | none => none
          | some (v, r4) =>
            match r4 with
            | [] => none
            | c2 :: r5 =>
              if c2 = ',' then
                match parseObjItems fuel r5 with
                | some (tl, r6) => some (.cons ⟨kcs⟩ v tl, r6)
                | none => none
              else if c2 = closeBrace then some (.cons ⟨kcs⟩ v .nil, r5)
              else none
        | _ => none
    else none
end

def jsonStringify (v : JValue) : String := ⟨printVal v⟩

def jsonParse (s : String) : Option JValue :=
  match parseVal (s.data.length + 1) s.data with
  | some (v, []) => some v
  | _ => none

/-- `safeStringify`: `JSON.stringify` wrapped in try/catch; it cannot throw on
the acyclic, representable values modelled here, so it is total. -/
def safeStringify (v : JValue) : Option String := some (jsonStringify v)

/-- `safeParse`: `JSON.parse` wrapped in try/catch, `none` on failure. -/
def safeParse (s : String) : Option JValue := jsonParse s

/-! ### Round-trip lemmas: digits and numbers -/

theorem digitChar_toNat (d : Nat) (h : d < 10) : (digitChar d).toNat = 48 + d := by
  interval_cases d <;> decide

theorem digitChar_isDigit (d : Nat) (h : d < 10) : (digitChar d).isDigit = true := by
  interval_cases d <;> decide

theorem hexDigVal_hexChar (d : Nat) (h : d < 16) : hexDigVal (hexChar d) = some d := by
  interval_cases d <;> decide

theorem printNat_shape (n : Nat) :
    (∃ d ds, printNat n = digitChar d :: ds ∧ d < 10) ∧
    (∀ c ∈ printNat n, c.isDigit = true) ∧
    natFromDigits (printNat n) = n := by
  induction n using Nat.strong_induction_on with
  | _ n ih =>
    rw [printNat]
    by_cases h : n < 10
    · rw [dif_pos h]
      refine ⟨⟨n, [], rfl, h⟩, ?_, ?_⟩
      · intro c hc
        rcases List.mem_singleton.1 hc with rfl
        exact digitChar_isDigit n h
      · show natFromDigits [digitChar n] = n
        unfold natFromDigits digitVal
        simp [digitChar_toNat n h]
    · rw [dif_neg h]
      obtain ⟨⟨d, ds, hsh, hd⟩, hdig, hval⟩ := ih (n / 10) (Nat.div_lt_self (by omega) (by omega))
      refine ⟨⟨d, ds ++ [digitChar (n % 10)], by rw [hsh]; rfl, hd⟩, ?_, ?_⟩
      · intro c hc
        rcases List.mem_append.1 hc with hc | hc
        · exact hdig c hc
        · rcases List.mem_singleton.1 hc with rfl
          exact digitChar_isDigit _ (Nat.mod_lt n (by omega))
      · unfold natFromDigits at hval ⊢
        rw [List.foldl_append, hval]
        simp only [List.foldl_cons, List.foldl_nil]
        unfold digitVal
        rw [digitChar_toNat _ (Nat.mod_lt n (by omega))]
        omega

/-- The head of `rest` is not a decimal digit (so a preceding number token
cannot absorb it). -/
def noDigitHead (rest : List Char) : Prop :=
  ∀ c, rest.head? = some c → c.isDigit = false

theorem takeDigits_exact (ds : List Char) (rest : List Char)
    (hds : ∀ c ∈ ds, c.isDigit = true) (hrest : noDigitHead rest) :
    takeDigits (ds ++ rest) = (ds, rest) := by
  induction ds with
  | nil =>
    cases rest with
    | nil => rfl
    | cons c r =>
      have := hrest c rfl
      simp [takeDigits, this]
  | cons d ds ih =>
    have hd := hds d (List.mem_cons_self _ _)
    have hds' : ∀ c ∈ ds, c.isDigit = true := fun c hc => hds c (List.mem_cons_of_mem _ hc)
    simp [takeDigits, hd, ih hds']

theorem parseNat_print (n : Nat) (rest : List Char) (hrest : noDigitHead rest) :
    parseNat (printNat n ++ rest) = some (n, rest) := by
  obtain ⟨⟨d, ds, hsh, hd⟩, hdig, hval⟩ := printNat_shape n
  unfold parseNat
  rw [takeDigits_exact _ _ hdig hrest, hsh]
  simp only []
  rw [← hsh, hval]

theorem parseInt_print (i : Int) (rest : List Char) (hrest : noDigitHead rest) :
    parseInt (printInt i ++ rest) = some (i, rest) := by
  unfold printInt
  by_cases h : i < 0
  · rw [if_pos h]
    show (if ('-' : Char) = '-' then
        Option.map (fun p => (-(p.1 : Int), p.2)) (parseNat (printNat i.natAbs ++ rest))
      else Option.map (fun p => ((p.1 : Int), p.2))
        (parseNat ('-' :: (printNat i.natAbs ++ rest)))) = some (i, rest)
    rw [if_pos rfl, parseNat_print _ _ hrest]
    show some (-((i.natAbs : Nat) : Int), rest) = some (i, rest)
    rw [show -((i.natAbs : Nat) : Int) = i by omega]
  · rw [if_neg h]
    obtain ⟨⟨d, ds, hsh, hd⟩, hdig, hval⟩ := printNat_shape i.toNat
    rw [hsh]
    have hne : digitChar d ≠ '-' := by
      intro hc
      have := congrArg Char.toNat hc
      rw [digitChar_toNat d hd] at this
      simp at this
      omega
    show (if digitChar d = '-' then
        Option.map (fun p => (-(p.1 : Int), p.2)) (parseNat (ds ++ rest))
      else Option.map (fun p => ((p.1 : Int), p.2))
        (parseNat (digitChar d :: (ds ++ rest)))) = some (i, rest)
    rw [if_neg hne, show digitChar d :: (ds ++ rest) = (digitChar d :: ds) ++ rest from rfl,
      ← hsh, parseNat_print _ _ hrest]
    show some ((i.toNat : Int), rest) = some (i, rest)
    rw [show ((i.toNat : Nat) : Int) = i by omega]

/-! ### Round-trip lemmas: string literals -/

theorem parseStrBody_quote (r : List Char) : parseStrBody ('"' :: r) = some ([], r) := by
  conv_lhs => rw [parseStrBody.eq_def]
  simp

theorem parseStrBody_esc (e ec : Char) (r : List Char)
    (he : escCharOf e = some ec) (hu : e ≠ 'u') :
    parseStrBody ('\\' :: e :: r) = (parseStrBody r).map fun p => (ec :: p.1, p.2) := by
  conv_lhs => rw [parseStrBody.eq_def]
  simp [hu, he]

theorem parseStrBody_u (a b c' d : Nat) (h1 h2 h3 h4 : Char) (r : List Char)
    (e1 : hexDigVal h1 = some a) (e2 : hexDigVal h2 = some b)
    (e3 : hexDigVal h3 = some c') (e4 : hexDigVal h4 = some d) :
    parseStrBody ('\\' :: 'u' :: h1 :: h2 :: h3 :: h4 :: r) =
      (parseStrBody r).map fun p =>
        (Char.ofNat (((a * 16 + b) * 16 + c') * 16 + d) :: p.1, p.2) := by
  conv_lhs => rw [parseStrBody.eq_def]
  simp [e1, e2, e3, e4]

theorem parseStrBody_other (c : Char) (r : List Char) (h1 : c ≠ '"') (h2 : c ≠ '\\') :
    parseStrBody (c :: r) = (parseStrBody r).map fun p => (c :: p.1, p.2) := by
  conv_lhs => rw [parseStrBody.eq_def]
  simp [h1, h2]

theorem parseStrBody_print (cs : List Char) (rest : List Char) :
    parseStrBody (printStrBody cs ++ ('"' :: rest)) = some (cs, rest) := by
  induction cs with
  | nil => exact parseStrBody_quote rest
  | cons c cs ih =>
    rw [show printStrBody (c :: cs) = escapeChar c ++ printStrBody cs from rfl,
      List.append_assoc]
    unfold escapeChar
    by_cases h1 : c = '"'
    · subst h1
      rw [if_pos rfl]
      show parseStrBody ('\\' :: '"' :: (printStrBody cs ++ ('"' :: rest))) = _
      rw [parseStrBody_esc '"' '"' _ (by decide) (by decide), ih]
      rfl
    · rw [if_neg h1]
      by_cases h2 : c = '\\'
      · subst h2
        rw [if_pos rfl]
        show parseStrBody ('\\' :: '\\' :: (printStrBody cs ++ ('"' :: rest))) = _
        rw [parseStrBody_esc '\\' '\\' _ (by decide) (by decide), ih]
        rfl
      · rw [if_neg h2]
        by_cases h3 : c = Char.ofNat 8
        · subst h3
          rw [if_pos rfl]
          show parseStrBody ('\\' :: 'b' :: (printStrBody cs ++ ('"' :: rest))) = _
          rw [parseStrBody_esc 'b' (Char.ofNat 8) _ (by decide) (by decide), ih]
          rfl
        · rw [if_neg h3]
          by_cases h4 : c = Char.ofNat 9
          · subst h4
            rw [if_pos rfl]
            show parseStrBody ('\\' :: 't' :: (printStrBody cs ++ ('"' :: rest))) = _
            rw [parseStrBody_esc 't' (Char.ofNat 9) _ (by decide) (by decide), ih]
            rfl
          · rw [if_neg h4]
            by_cases h5 : c = Char.ofNat 10
            · subst h5
              rw [if_pos rfl]
              show parseStrBody ('\\' :: 'n' :: (printStrBody cs ++ ('"' :: rest))) = _
              rw [parseStrBody_esc 'n' (Char.ofNat 10) _ (by decide) (by decide), ih]
              rfl
            · rw [if_neg h5]
              by_cases h6 : c = Char.ofNat 12
              · subst h6
                rw [if_pos rfl]
                show parseStrBody ('\\' :: 'f' :: (printStrBody cs ++ ('"' :: rest))) = _
                rw [parseStrBody_esc 'f' (Char.ofNat 12) _ (by decide) (by decide), ih]
                rfl
              · rw [if_neg h6]
                by_cases h7 : c = Char.ofNat 13
                · subst h7
                  rw [if_pos rfl]
                  show parseStrBody ('\\' :: 'r' :: (printStrBody cs ++ ('"' :: rest))) = _
                  rw [parseStrBody_esc 'r' (Char.ofNat 13) _ (by decide) (by decide), ih]
                  rfl
                · rw [if_neg h7]
                  by_cases hctl : c.toNat < 32
                  · rw [if_pos hctl]
                    show parseStrBody ('\\' :: 'u' :: '0' :: '0' ::
                      hexChar (c.toNat / 16) :: hexChar (c.toNat % 16) ::
                      (printStrBody cs ++ ('"' :: rest))) = _
                    rw [parseStrBody_u 0 0 (c.toNat / 16) (c.toNat % 16) _ _ _ _ _
                        (by decide) (by decide)
                        (hexDigVal_hexChar _ (by omega))
                        (hexDigVal_hexChar _ (by omega)),
                      ih]
                    rw [show ((0 * 16 + 0) * 16 + c.toNat / 16) * 16 + c.toNat % 16 =
                      c.toNat by omega, Char.ofNat_toNat]
                    rfl
                  · rw [if_neg hctl]
                    show parseStrBody (c :: (printStrBody cs ++ ('"' :: rest))) = _
                    rw [parseStrBody_other c _ h1 h2, ih]
                    rfl

/-! ### Round-trip: the value level -/

mutual
def sizeV : JValue → Nat
  | .null => 1
  | .bool _ => 1
  | .num _ => 1
  | .str _ => 1
  | .arr a => sizeA a + 1
  | .obj o => sizeO o + 1

def sizeA : JArr → Nat
  | .nil => 1
  | .cons v tl => max (sizeV v) (sizeA tl) + 1

def sizeO : JObj → Nat
  | .nil => 1
  | .cons _ v tl => max (sizeV v) (sizeO tl) + 1
end

theorem sizeV_pos (v : JValue) : 1 ≤ sizeV v := by
  cases v <;> simp [sizeV]

theorem sizeA_pos (a : JArr) : 1 ≤ sizeA a := by
  cases a <;> simp [sizeA]

theorem sizeO_pos (o : JObj) : 1 ≤ sizeO o := by
  cases o <;> simp [sizeO]

theorem numHead_ne_of (c x : Char) (hc : c = '-' ∨ c.isDigit = true)
    (hx1 : ('-' : Char) ≠ x) (hx2 : x.isDigit = false) : c ≠ x := by
  rcases hc with rfl | hd
  · exact hx1
  · intro h
    rw [h, hx2] at hd
    cases hd

theorem printInt_headOk (i : Int) :
    ∃ c cs, printInt i = c :: cs ∧ (c = '-' ∨ c.isDigit = true) := by
  unfold printInt
  by_cases h : i < 0
  · rw [if_pos h]
    exact ⟨'-', _, rfl, Or.inl rfl⟩
  · rw [if_neg h]
    obtain ⟨⟨d, ds, hsh, hd⟩, -, -⟩ := printNat_shape i.toNat
    exact ⟨digitChar d, ds, hsh, Or.inr (digitChar_isDigit d hd)⟩

theorem printVal_head (v : JValue) : ∃ c cs, printVal v = c :: cs ∧ c ≠ ']' := by
  cases v with
  | null => exact ⟨'n', _, rfl, by decide⟩
  | bool b =>
    cases b
    · exact ⟨'f', _, rfl, by decide⟩
    · exact ⟨'t', _, rfl, by decide⟩
  | num i =>
    obtain ⟨c, cs, hsh, hc⟩ := printInt_headOk i
    exact ⟨c, cs, hsh, numHead_ne_of c ']' hc (by decide) (by decide)⟩
  | str s => exact ⟨'"', _, rfl, by decide⟩
  | arr a => exact ⟨'[', _, rfl, by decide⟩
  | obj o => exact ⟨openBrace, _, rfl, by decide⟩

theorem noDigitHead_nil : noDigitHead [] := by
  intro c hc
  cases hc

theorem noDigitHead_cons (c : Char) (r : List Char) (h : c.isDigit = false) :
    noDigitHead (c :: r) := by
  intro c' hc
  injection hc with hc
  rw [← hc]
  exact h

mutual
theorem sizeV_le_print : ∀ v : JValue, sizeV v ≤ (printVal v).length + 1
  | .null => by
    simp only [sizeV]
    omega
  | .bool b => by
    cases b <;> simp only [sizeV] <;> omega
  | .num i => by
    have := sizeV_pos (.num i)
    simp [sizeV]
  | .str s => by simp [sizeV]
  | .arr a => by
    have h := sizeA_le_print a
    show sizeA a + 1 ≤ ('[' :: (printArr a ++ [']'])).length + 1
    simp only [List.length_cons, List.length_append, List.length_singleton]
    omega
  | .obj o => by
    have h := sizeO_le_print o
    show sizeO o + 1 ≤ (openBrace :: (printObj o ++ [closeBrace])).length + 1
    simp only [List.length_cons, List.length_append, List.length_singleton]
    omega

theorem sizeA_le_print : ∀ a : JArr, sizeA a ≤ (printArr a).length + 2
  | .nil => by simp [sizeA, printArr]
  | .cons v .nil => by
    have h := sizeV_le_print v
    show max (sizeV v) (sizeA .nil) + 1 ≤ (printVal v).length + 2
    simp only [sizeA]
    omega
  | .cons v (.cons w tl) => by
    have h1 := sizeV_le_print v
    have h2 := sizeA_le_print (.cons w tl)
    show max (sizeV v) (sizeA (.cons w tl)) + 1 ≤
      (printVal v ++ (',' :: printArr (.cons w tl))).length + 2
    simp only [List.length_append, List.length_cons]
    omega

theorem sizeO_le_print : ∀ o : JObj, sizeO o ≤ (printObj o).length + 2
  | .nil => by simp [sizeO, printObj]
  | .cons k v .nil => by
    have h := sizeV_le_print v
    show max (sizeV v) (sizeO .nil) + 1 ≤ (printStr k ++ (':' :: printVal v)).length + 2
    simp only [sizeO, List.length_append, List.length_cons]
    omega
  | .cons k v (.cons k2 v2 tl) => by
    have h1 := sizeV_le_print v
    have h2 := sizeO_le_print (.cons k2 v2 tl)
    show max (sizeV v) (sizeO (.cons k2 v2 tl)) + 1 ≤
      ((printStr k ++ (':' :: printVal v)) ++ (',' :: printObj (.cons k2 v2 tl))).length + 2
    simp only [List.length_append, List.length_cons]
    omega
end

theorem parse_print_fuel : ∀ fuel : Nat,
    (∀ v rest, sizeV v ≤ fuel → noDigitHead rest →
      parseVal fuel (printVal v ++ rest) = some (v, rest)) ∧
    (∀ a rest, sizeA a ≤ fuel →
      parseArrItems fuel (printArr a ++ (']' :: rest)) = some (a, rest)) ∧
    (∀ o rest, sizeO o ≤ fuel →
      parseObjItems fuel (printObj o ++ (closeBrace :: rest)) = some (o, rest)) := by
  intro fuel
  induction fuel with
  | zero =>
    refine ⟨?_, ?_, ?_⟩
    · intro v rest h _
      exact absurd h (by have := sizeV_pos v; omega)
    · intro a rest h
      exact absurd h (by have := sizeA_pos a; omega)
    · intro o rest h
      exact absurd h (by have := sizeO_pos o; omega)
  | succ fuel ih =>
    obtain ⟨ihV, ihA, ihO⟩ := ih
    refine ⟨?_, ?_, ?_⟩
    · intro v rest hsz hrest
      cases v with
      | null =>
        show parseVal (fuel + 1) ('n' :: 'u' :: 'l' :: 'l' :: rest) = some (.null, rest)
        conv_lhs => rw [parseVal.eq_def]
        simp
      | bool b =>
        cases b
        · show parseVal (fuel + 1) ('f' :: 'a' :: 'l' :: 's' :: 'e' :: rest) =
            some (.bool false, rest)
          conv_lhs => rw [parseVal.eq_def]
          simp
        · show parseVal (fuel + 1) ('t' :: 'r' :: 'u' :: 'e' :: rest) =
            some (.bool true, rest)
          conv_lhs => rw [parseVal.eq_def]
          simp
      | num i =>
        obtain ⟨c, cs, hsh, hc⟩ := printInt_headOk i
        have hn := numHead_ne_of c 'n' hc (by decide) (by decide)
        have ht := numHead_ne_of c 't' hc (by decide) (by decide)
        have hf := numHead_ne_of c 'f' hc (by decide) (by decide)
        have hq := numHead_ne_of c '"' hc (by decide) (by decide)
        have hlb := numHead_ne_of c '[' hc (by decide) (by decide)
        have hob := numHead_ne_of c openBrace hc (by decide) (by decide)
        have hpi : parseInt (c :: (cs ++ rest)) = some (i, rest) := by
          rw [← List.cons_append, ← hsh]
          exact parseInt_print i rest hrest
        show parseVal (fuel + 1) (printInt i ++ rest) = some (.num i, rest)
        rw [hsh, List.cons_append]
        conv_lhs => rw [parseVal.eq_def]
        simp [hn, ht, hf, hq, hlb, hob, hc, hpi]
      | str s =>
        rw [show printVal (.str s) ++ rest =
          '"' :: (printStrBody s.data ++ ('"' :: rest)) from by simp [printVal, printStr]]
        conv_lhs => rw [parseVal.eq_def]
        simp [parseStrBody_print]
      | arr a =>
        rw [show printVal (.arr a) ++ rest =
          '[' :: (printArr a ++ (']' :: rest)) from by simp [printVal]]
        have hA := ihA a rest (by simp [sizeV] at hsz; omega)
        conv_lhs => rw [parseVal.eq_def]
        simp [hA]
      | obj o =>
        rw [show printVal (.obj o) ++ rest =
          openBrace :: (printObj o ++ (closeBrace :: rest)) from by simp [printVal]]
        have hO := ihO o rest (by simp [sizeV] at hsz; omega)
        have e1 : openBrace ≠ 'n' := by decide
        have e2 : openBrace ≠ 't' := by decide
        have e3 : openBrace ≠ 'f' := by decide
        have e4 : openBrace ≠ '"' := by decide
        have e5 : openBrace ≠ '[' := by decide
        conv_lhs => rw [parseVal.eq_def]
        simp [e1, e2, e3, e4, e5, hO]
    · intro a rest hsz
      cases a with
      | nil =>
        show parseArrItems (fuel + 1) (']' :: rest) = some (.nil, rest)
        conv_lhs => rw [parseArrItems.eq_def]
        simp
      | cons v tl =>
        obtain ⟨c, cs, hsh, hne⟩ := printVal_head v
        cases tl with
        | nil =>
          show parseArrItems (fuel + 1) (printVal v ++ (']' :: rest)) =
            some (.cons v .nil, rest)
          have hV := ihV v (']' :: rest) (by simp [sizeA] at hsz; omega)
            (noDigitHead_cons _ _ (by decide))
          rw [hsh, List.cons_append] at hV ⊢
          conv_lhs => rw [parseArrItems.eq_def]
          simp [hne, hV]
        | cons w tl2 =>
          show parseArrItems (fuel + 1)
            ((printVal v ++ (',' :: printArr (.cons w tl2))) ++ (']' :: rest)) =
            some (.cons v (.cons w tl2), rest)
          rw [List.append_assoc, List.cons_append]
          have hV := ihV v (',' :: (printArr (.cons w tl2) ++ (']' :: rest)))
            (by simp [sizeA] at hsz; omega) (noDigitHead_cons _ _ (by decide))
          have hA := ihA (.cons w tl2) rest (by simp [sizeA] at hsz ⊢; omega)
          rw [hsh, List.cons_append] at hV ⊢
          conv_lhs => rw [parseArrItems.eq_def]
          simp [hne, hV, hA]
    · intro o rest hsz
      cases o with
      | nil =>
        show parseObjItems (fuel + 1) (closeBrace :: rest) = some (.nil, rest)
        conv_lhs => rw [parseObjItems.eq_def]
        simp
      | cons k v tl =>
        cases tl with
        | nil =>
          rw [show printObj (.cons k v .nil) ++ (closeBrace :: rest) =
            '"' :: (printStrBody k.data ++
              ('"' :: (':' :: (printVal v ++ (closeBrace :: rest))))) from by
            simp [printObj, printStr]]
          have hK := parseStrBody_print k.data
            (':' :: (printVal v ++ (closeBrace :: rest)))
          have hV := ihV v (closeBrace :: rest) (by simp [sizeO] at hsz; omega)
            (noDigitHead_cons _ _ (by decide))
          have e1 : ('"' : Char) ≠ closeBrace := by decide
          have e2 : closeBrace ≠ ',' := by decide
          conv_lhs => rw [parseObjItems.eq_def]
          simp [e1, e2, hK, hV]
        | cons k2 v2 tl2 =>
          rw [show printObj (.cons k v (.cons k2 v2 tl2)) ++ (closeBrace :: rest) =
            '"' :: (printStrBody k.data ++
              ('"' :: (':' :: (printVal v ++
                (',' :: (printObj (.cons k2 v2 tl2) ++ (closeBrace :: rest))))))) from by
            simp [printObj, printStr]]
          have hK := parseStrBody_print k.data
            (':' :: (printVal v ++
              (',' :: (printObj (.cons k2 v2 tl2) ++ (closeBrace :: rest)))))
          have hV := ihV v
            (',' :: (printObj (.cons k2 v2 tl2) ++ (closeBrace :: rest)))
            (by simp [sizeO] at hsz; omega) (noDigitHead_cons _ _ (by decide))
          have hO := ihO (.cons k2 v2 tl2) rest (by simp [sizeO] at hsz ⊢; omega)
          have e1 : ('"' : Char) ≠ closeBrace := by decide
          conv_lhs => rw [parseObjItems.eq_def]
          simp [e1, hK, hV, hO]

theorem jsonParse_jsonStringify (v : JValue) :
    jsonParse (jsonStringify v) = some v := by
  have h := (parse_print_fuel ((printVal v).length + 1)).1 v []
    (sizeV_le_print v) noDigitHead_nil
  rw [List.append_nil] at h
  show (match parseVal ((printVal v).length + 1) (printVal v) with
    | some (v, []) => some v
    | _ => none) = some v
  rw [h]

/-! ### The persisted note layout (spec §6) and its readback -/

def encodeTags : List String → JArr
  | [] => .nil
  | t :: ts => .cons (.str t) (encodeTags ts)

/-- A field that is present only when the underlying value is
(`JSON.stringify` omits properties holding `undefined`). -/
def objField (k : String) (v : Option JValue) (rest : JObj) : JObj :=
  match v with
  | some j => .cons k j rest
  | none => rest

/-- Modelled from the spec: the persisted JSON form of one note — spec §6's
layout ("array of Note objects ... with the same field names and types"),
fields in the object-literal insertion order of the code; the platform's
`JSON.stringify`/`JSON.parse` (not repository code) are modelled by the
concrete `jsonStringify`/`jsonParse` above. -/
def encodeNote (n : Note) : JValue :=
  .obj (.cons "id" (.str n.id)
    (objField "title" (n.title.map .str)
      (objField "content" (n.content.map .str)
        (objField "tags" (n.tags.map fun ts => .arr (encodeTags ts))
          (.cons "createdAt" (.num n.createdAt)
            (objField "updatedAt" (n.updatedAt.map .num)
              (.cons "pinned" (.bool n.pinned) .nil)))))))

def encodeNotes : List Note → JArr
  | [] => .nil
  | n :: ns => .cons (encodeNote n) (encodeNotes ns)

/-- Property lookup on a parsed JSON object. -/
def objLookup : JObj → String → Option JValue
  | .nil, _ => none
  | .cons k v rest, t => if k = t then some v else objLookup rest t

def decodeTags : JArr → Option (List String)
  | .nil => some []
  | .cons (.str s) tl => (decodeTags tl).map (s :: ·)
  | .cons _ _ => none

/-- Modelled from the spec: reading one note back from its parsed JSON value,
as the app's duck-typed field accesses do — absent or ill-typed optional
fields become `none`, while the always-written fields must be present. -/
def decodeNote (v : JValue) : Option Note :=
  match v with
  | .obj fields =>
    match objLookup fields "id", objLookup fields "createdAt",
        objLookup fields "pinned" with
    | some (.str i), some (.num ca), some (.bool p) =>
      some
        { id := i
          title := match objLookup fields "title" with
            | some (.str t) => some t
            | _ => none
          content := match objLookup fields "content" with
            | some (.str c) => some c
            | _ => none
          tags := match objLookup fields "tags" with
            | some (.arr a) => decodeTags a
            | _ => none
          createdAt := ca
          updatedAt := match objLookup fields "updatedAt" with
            | some (.num u) => some u
            | _ => none
          pinned := p }
    | _, _, _ => none
  | _ => none

def decodeNotes (v : JValue) : Option (List Note) :=
  match v with
  | .arr items => decodeNotesArr items
  | _ => none
where
  decodeNotesArr : JArr → Option (List Note)
    | .nil => some []
    | .cons v tl =>
      match decodeNote v, decodeNotesArr tl with
      | some n, some ns => some (n :: ns)
      | _, _ => none

/-- A well-formed note: every optional field actually present (string
id/title/content, string-array tags, integer timestamps, boolean pinned). -/
def WFNote (n : Note) : Prop :=
  n.title.isSome = true ∧ n.content.isSome = true ∧
  n.tags.isSome = true ∧ n.updatedAt.isSome = true

instance : DecidablePred WFNote := fun n => by unfold WFNote; infer_instance

theorem decodeTags_encodeTags (ts : List String) :
    decodeTags (encodeTags ts) = some ts := by
  induction ts with
  | nil => rfl
  | cons t ts ih => simp [encodeTags, decodeTags, ih]

theorem decodeNote_encodeNote (n : Note) (h : WFNote n) :
    decodeNote (encodeNote n) = some n := by
  obtain ⟨h1, h2, h3, h4⟩ := h
  obtain ⟨t, ht⟩ := Option.isSome_iff_exists.1 h1
  obtain ⟨c, hc⟩ := Option.isSome_iff_exists.1 h2
  obtain ⟨ts, hts⟩ := Option.isSome_iff_exists.1 h3
  obtain ⟨u, hu⟩ := Option.isSome_iff_exists.1 h4
  simp [encodeNote, decodeNote, objField, objLookup, ht, hc, hts, hu,
    decodeTags_encodeTags]
  cases n
  simp_all

theorem decodeNotes_encodeNotes (notes : List Note) (h : ∀ n ∈ notes, WFNote n) :
    decodeNotes (.arr (encodeNotes notes)) = some notes := by
  show decodeNotes.decodeNotesArr (encodeNotes notes) = some notes
  induction notes with
  | nil => rfl
  | cons n ns ih =>
    have hn := decodeNote_encodeNote n (h n (List.mem_cons_self _ _))
    have hns := ih fun m hm => h m (List.mem_cons_of_mem _ hm)
    simp [encodeNotes, decodeNotes.decodeNotesArr, hn, hns]

/-- C9: serializing a collection of well-formed notes to the persisted JSON
text (`safeStringify`) and reading it back (`safeParse`, then the app's
duck-typed field access) yields a field-for-field equal collection. -/
theorem C9_roundtrip_persisted_notes (notes : List Note)
    (h : ∀ n ∈ notes, WFNote n) :
    ((safeStringify (.arr (encodeNotes notes))).bind safeParse).bind decodeNotes =
      some notes := by
  show (safeParse (jsonStringify (.arr (encodeNotes notes)))).bind decodeNotes =
    some notes
  unfold safeParse
  rw [jsonParse_jsonStringify]
  show decodeNotes (.arr (encodeNotes notes)) = some notes
  exact decodeNotes_encodeNotes notes h

def wfNote1 : Note :=
  { id := "a1", title := some "Test Note", content := some "hello"
    tags := some ["work", "urgent"], createdAt := 5, updatedAt := some 7
    pinned := false }

theorem C9_roundtrip_persisted_notes_witness :
    ((safeStringify (.arr (encodeNotes [wfNote1]))).bind safeParse).bind decodeNotes =
      some [wfNote1] :=
  C9_roundtrip_persisted_notes [wfNote1] (by
    intro n hn
    rw [List.mem_singleton.1 hn]
    decide)

end NotesApp
